import Mathlib

/-!
Shallow embedding of two adapters of the repository:
* `internal/service/opsworks/layers.go` — the OpsWorks layer-type adapter
  (attribute-bag encode/decode, load-balancer attach/detach on update,
  EBS volume configuration marshalling), and
* `internal/service/ec2/vpc_ipam_pool_data_source.go` — the IPAM pool
  lookup data source.

Go strings are modelled as Lean `String`s (lists of characters where a
character-level view is needed); Go `map` values are modelled as
association lists together with a lookup function; `d.Set(key, nil)` is
modelled by a distinguished `null` attribute value.

The file is organised as: all definitions first, then all lemmas and
theorems.
-/

namespace TfAws

/-! ### Go `strconv` model

Models of `strconv.Itoa` / `strconv.Atoi` as used by `layers.go`.
`Atoi` accepts an optional single leading sign followed by one or more
ASCII decimal digits and rejects everything else.  (Go's `Atoi`
additionally fails on 64-bit overflow; the adapter never feeds it
values anywhere near that range, so the model uses unbounded
integers.)
-/

/-- Decimal digit character for `d < 10` (`'0'` through `'9'`). -/
def digitChar : Nat → Char
  | 0 => '0' | 1 => '1' | 2 => '2' | 3 => '3' | 4 => '4'
  | 5 => '5' | 6 => '6' | 7 => '7' | 8 => '8' | _ => '9'

/-- Interpret a character as a decimal digit, `none` when it is not one. -/
def charDigit (c : Char) : Option Nat :=
  if '0' ≤ c ∧ c ≤ '9' then some (c.toNat - 48) else none

/-- Big-endian decimal digit string of a natural number. -/
def natToChars (n : Nat) : List Char :=
  if h : n < 10 then [digitChar n]
  else natToChars (n / 10) ++ [digitChar (n % 10)]
  decreasing_by exact Nat.div_lt_self (by omega) (by omega)

/-- Accumulating decimal parser over a character list; fails on the first
non-digit character. -/
def parseDigitsAux (acc : Nat) : List Char → Option Nat
  | [] => some acc
  | c :: cs =>
    match charDigit c with
    | some d => parseDigitsAux (acc * 10 + d) cs
    | none => none

/-- Parse a non-empty all-digits character list as a natural number. -/
def parseDigits : List Char → Option Nat
  | [] => none
  | cs => parseDigitsAux 0 cs

/-- Model of Go `strconv.Itoa` (via `int64`): minus sign for negatives,
then the big-endian decimal digits of the absolute value. -/
def itoa (n : Int) : String :=
  if n < 0 then ⟨'-' :: natToChars n.natAbs⟩ else ⟨natToChars n.natAbs⟩

/-- Model of Go `strconv.Atoi`: an optional leading `+` or `-`, then one
or more decimal digits; every other input is an error (`none`). -/
def atoi (s : String) : Option Int :=
  match s.data with
  | [] => none
  | c :: cs =>
    if c = '+' then (parseDigits cs).map (fun m => (m : Int))
    else if c = '-' then (parseDigits cs).map (fun m => -(m : Int))
    else (parseDigits (c :: cs)).map (fun m => (m : Int))

/-! ### OpsWorks layer adapter data model (`internal/service/opsworks/layers.go`)

A layer type descriptor maps local attribute keys to
`opsworksLayerTypeAttribute` records.  The Go descriptor is a
`map[string]*opsworksLayerTypeAttribute`; it is modelled as an
association list (one entry per local key, in some iteration order —
Go map iteration order is unspecified, so order-sensitive behaviour is
quantified over, or exhibited at, explicit orders).

Local resource state is a flat mapping from attribute key to typed
value; `d.Set(key, nil)` stores the distinguished `null` value.  The
remote attribute bag is Go's `map[string]*string`: a key can be absent,
present with a nil pointer, or present with a string.
-/

/-- Subset of `schema.ValueType` relevant to `layers.go`
(`TypeList` and `TypeSet` stand in for the unsupported types that hit
the `default` branches). -/
inductive SchemaValueType
  | typeString
  | typeInt
  | typeBool
  | typeList
  | typeSet
  deriving DecidableEq, Repr

/-- Model of `opsworksLayerTypeAttribute` (the `Default` and `Required`
fields play no role in the marshalling functions and are omitted). -/
structure LayerTypeAttribute where
  attrName : String
  type : SchemaValueType
  writeOnly : Bool
  deriving DecidableEq, Repr

/-- A typed local attribute value, with `null` for a cleared field
(`d.Set(key, nil)`). -/
inductive AttrValue
  | str (s : String)
  | int (n : Int)
  | bool (b : Bool)
  | null
  deriving DecidableEq, Repr

/-- Local resource state: what `d.Get` returns for each key. -/
abbrev LocalState := String → AttrValue

/-- Model of `d.Set key v` on local state. -/
def setKey (s : LocalState) (k : String) (v : AttrValue) : LocalState :=
  fun k' => if k' = k then v else s k'

/-- A layer type descriptor's attribute table: local key ↦ attribute
definition, in iteration order. -/
abbrev AttrTable := List (String × LayerTypeAttribute)

/-- Remote attribute bag `map[string]*string`: `none` = key absent,
`some none` = present with nil pointer, `some (some s)` = present. -/
abbrev Bag := String → Option (Option String)

/-- View an association list of produced entries as a bag (every entry
present with a non-nil value). -/
def bagOfList : List (String × String) → Bag
  | [], _ => none
  | (k, v) :: rest, q => if q = k then some (some v) else bagOfList rest q

/-- The string `value.(string)` that `d.Get` yields for a
string-declared attribute (zero value `""` when unset). -/
def AttrValue.asStr : AttrValue → String
  | .str s => s
  | _ => ""

/-- The integer `value.(int)` that `d.Get` yields for an int-declared
attribute (zero value `0` when unset). -/
def AttrValue.asInt : AttrValue → Int
  | .int n => n
  | _ => 0

/-- The boolean `value.(bool)` that `d.Get` yields for a bool-declared
attribute (zero value `false` when unset). -/
def AttrValue.asBool : AttrValue → Bool
  | .bool b => b
  | _ => false

/-- Whether a declared value type is one the marshalling functions
support (the `case` arms of `AttributeMap` / `SetAttributeMap`). -/
def SchemaValueType.supported : SchemaValueType → Bool
  | .typeString | .typeInt | .typeBool => true
  | _ => false

/-- Whether a stored local value has the shape its declared type calls
for (schema-conformant state: `d.Get` on a string-typed key yields a
string, and so on). -/
def typedFor : SchemaValueType → AttrValue → Bool
  | .typeString, .str _ => true
  | .typeInt, .int _ => true
  | .typeBool, .bool _ => true
  | _, _ => false

/-- The string the write direction stores for one attribute of a
supported type (the three `case` arms of `AttributeMap`); `""` for the
unsupported types, which never reach this point. -/
def encodeVal : SchemaValueType → AttrValue → String
  | .typeString, v => v.asStr
  | .typeInt, v => itoa v.asInt
  | .typeBool, v => if v.asBool then "true" else "false"
  | _, _ => ""

/-- Model of `opsworksLayerType.AttributeMap` (write direction,
layers.go 542-569): one bag entry per descriptor attribute keyed by its
remote name; strings pass through, ints go through `strconv.Itoa`,
bools become `"true"`/`"false"`; any other declared type aborts with an
error. -/
def attributeMap : AttrTable → LocalState → Except String (List (String × String))
  | [], _ => .ok []
  | (key, a) :: rest, get =>
    match a.type with
    | .typeString => (attributeMap rest get).map (fun l => (a.attrName, (get key).asStr) :: l)
    | .typeInt => (attributeMap rest get).map (fun l => (a.attrName, itoa (get key).asInt) :: l)
    | .typeBool =>
      (attributeMap rest get).map
        (fun l => (a.attrName, if (get key).asBool then "true" else "false") :: l)
    | _ => .error "Unsupported OpsWorks layer attribute type"

/-- Model of `opsworksLayerType.SetAttributeMap` (read direction,
layers.go 571-610), modelled faithfully including the `return nil`
inside the loop body: a write-only attribute is skipped; an absent or
nil-pointer entry clears the field and the loop continues; a present
entry is decoded (string pass-through; `strconv.Atoi` with parse
failure clearing the field; booleans false exactly on the `"false"`
token) and then the function RETURNS, leaving all remaining attributes
untouched. -/
def setAttributeMap : AttrTable → Bag → LocalState → Except String LocalState
  | [], _, s => .ok s
  | (key, a) :: rest, bag, s =>
    if a.writeOnly then setAttributeMap rest bag s
    else
      match bag a.attrName with
      | some (some strValue) =>
        match a.type with
        | .typeString => .ok (setKey s key (.str strValue))
        | .typeInt =>
          match atoi strValue with
          | some n => .ok (setKey s key (.int n))
          | none => .ok (setKey s key .null)
        | .typeBool => .ok (setKey s key (.bool (if strValue = "false" then false else true)))
        | _ => .error "Unsupported OpsWorks layer attribute type"
      | _ => setAttributeMap rest bag (setKey s key .null)

/-- One local `ebs_volume` record as `d.Get` returns it. -/
structure VolumeIn where
  mountPoint : String
  numberOfDisks : Int
  size : Int
  volType : String
  encrypted : Bool
  iops : Int
  raidLevel : String
  deriving DecidableEq, Repr

/-- One outbound `opsworks.VolumeConfiguration`; `none` models an
omitted (nil-pointer) field. -/
structure VolumeConfigurationOut where
  mountPoint : String
  numberOfDisks : Int
  size : Int
  volumeType : String
  encrypted : Bool
  iops : Option Int
  raidLevel : Option Int
  deriving DecidableEq, Repr

/-- Loop body of `opsworksLayerType.VolumeConfigurations`
(layers.go 664-687): the outbound record built from one local record.
IOPS is set only when non-zero; a non-empty RAID-level string is sent
iff `strconv.Atoi` parses it, and is silently dropped otherwise. -/
def volumeConfigurationOf (v : VolumeIn) : VolumeConfigurationOut :=
  { mountPoint := v.mountPoint
    numberOfDisks := v.numberOfDisks
    size := v.size
    volumeType := v.volType
    encrypted := v.encrypted
    iops := if v.iops ≠ 0 then some v.iops else none
    raidLevel := if v.raidLevel ≠ "" then atoi v.raidLevel else none }

/-- Model of `opsworksLayerType.VolumeConfigurations` (layers.go
660-690): one outbound record per local `ebs_volume` record, in
order. -/
def volumeConfigurations (vs : List VolumeIn) : List VolumeConfigurationOut :=
  vs.map volumeConfigurationOf

/-- An OpsWorks API call observable in `Update` (layers.go 449-527). -/
inductive ApiCall
  | detachELB (name : String)
  | attachELB (name : String)
  | updateLayer
  deriving DecidableEq, Repr

/-- Call sequence `Update` issues around the load-balancer change
(layers.go 483-512): when `elastic_load_balancer` changed, detach the
old name if non-empty, then attach the new name if non-empty; then the
`UpdateLayer` call itself. -/
def updateCalls (oldLB newLB : String) : List ApiCall :=
  (if oldLB ≠ newLB then
    (if oldLB ≠ "" then [.detachELB oldLB] else []) ++
      (if newLB ≠ "" then [.attachELB newLB] else [])
  else []) ++ [.updateLayer]

/-! ### IPAM pool data source (`internal/service/ec2/vpc_ipam_pool_data_source.go`)

Go's `strings.Split` with the single-character separator `"/"` is
modelled at the character-list level; the unguarded index
`strings.Split(...)[1]` is modelled by `List.get?`, with `none`
standing for the index-out-of-range panic.
-/

/-- Model of Go `strings.Split` for a one-character separator: always
returns at least one (possibly empty) segment. -/
def splitSep (sep : Char) : List Char → List (List Char)
  | [] => [[]]
  | c :: rest =>
    if c = sep then [] :: splitSep sep rest
    else
      match splitSep sep rest with
      | [] => [[c]]
      | seg :: segs => (c :: seg) :: segs

/-- One `ec2.IpamPool` record as returned by `DescribeIpamPools`.
Pointer-typed response fields the read dereferences unconditionally are
plain values; `PubliclyAdvertisable` keeps its pointer optionality
because the read checks it for nil. -/
structure IpamPool where
  ipamPoolId : String
  ipamScopeArn : String
  publiclyAdvertisable : Option Bool
  autoImport : Bool
  description : String
  ipamScopeType : String
  locale : String
  poolDepth : Int
  awsService : String
  sourceIpamPoolId : String
  state : String
  deriving DecidableEq, Repr

/-- Output attributes `dataSourceVPCIpamPoolRead` projects from the
selected record. -/
structure PoolAttrs where
  id : String
  publiclyAdvertisable : Option Bool
  autoImport : Bool
  description : String
  ipamScopeId : String
  ipamScopeType : String
  locale : String
  poolDepth : Int
  awsService : String
  sourceIpamPoolId : String
  state : String
  deriving DecidableEq, Repr

/-- Outcome of the data-source read after a successful list query:
either a normal return (with the projected attributes, or nothing when
the read bailed out early), a Go panic, or a returned error.  After the
query's own error check, the source has no `return err` path, so the
model never constructs `.error`; the constructor records that the Go
signature allows one. -/
inductive ReadOutcome
  | ok (attrs : Option PoolAttrs)
  | panic
  | error (msg : String)
  deriving DecidableEq, Repr

/-- Projection of one record onto the output attributes, given the
already-extracted scope identifier. -/
def projectPool (pool : IpamPool) (scopeId : String) : PoolAttrs :=
  { id := pool.ipamPoolId
    publiclyAdvertisable := pool.publiclyAdvertisable
    autoImport := pool.autoImport
    description := pool.description
    ipamScopeId := scopeId
    ipamScopeType := pool.ipamScopeType
    locale := pool.locale
    poolDepth := pool.poolDepth
    awsService := pool.awsService
    sourceIpamPoolId := pool.sourceIpamPoolId
    state := pool.state }

/-- Model of `dataSourceVPCIpamPoolRead`
(vpc_ipam_pool_data_source.go 94-140) from the point where
`DescribeIpamPools` has succeeded: bail out with a nil error when the
result list is empty or its first element is nil; otherwise take
`IpamPools[0]`, derive the scope id as
`strings.Split(*pool.IpamScopeArn, "/")[1]` — a panic when that index
is out of range — and project the record's fields. -/
def dataSourceVPCIpamPoolRead (pools : List (Option IpamPool)) : ReadOutcome :=
  match pools with
  | [] => .ok none
  | none :: _ => .ok none
  | some pool :: _ =>
    match (splitSep '/' pool.ipamScopeArn.data)[1]? with
    | none => .panic
    | some seg => .ok (some (projectPool pool ⟨seg⟩))

/-! ### Concrete sample inputs used to instantiate the theorems -/

/-- A small concrete descriptor table: a string attribute, a write-only
string attribute, an int attribute and a bool attribute, with distinct
local keys and distinct remote names. -/
def sampleTable : AttrTable :=
  [("s1", ⟨"S1", .typeString, false⟩),
   ("wo", ⟨"WO", .typeString, true⟩),
   ("i1", ⟨"I1", .typeInt, false⟩),
   ("b1", ⟨"B1", .typeBool, false⟩)]

/-- A concrete schema-conformant local state for `sampleTable`. -/
def sampleState : LocalState := fun k =>
  if k = "s1" then .str "v"
  else if k = "wo" then .str "secret"
  else if k = "i1" then .int (-3)
  else if k = "b1" then .bool false
  else .null

/-- A concrete pool record whose scope ARN has two path segments. -/
def poolA : IpamPool :=
  ⟨"pool-1", "ipam-scope/scp-1", none, false, "first", "private", "None", 1, "", "", "create-complete"⟩

/-- A second concrete pool record, matching alongside `poolA`. -/
def poolB : IpamPool :=
  ⟨"pool-2", "ipam-scope/scp-2", some true, true, "second", "public", "us-east-1", 2, "ec2", "pool-0", "create-complete"⟩

/-- A concrete pool record whose scope ARN has no path separator. -/
def poolNoSlash : IpamPool :=
  ⟨"pool-3", "malformed", none, false, "", "", "", 0, "", "", ""⟩

/-! ### Lemmas: the Go `strconv` round-trip -/

lemma charDigit_digitChar {d : Nat} (hd : d < 10) :
    charDigit (digitChar d) = some d := by
  interval_cases d <;> decide

lemma digitChar_ne_plus {d : Nat} (hd : d < 10) : digitChar d ≠ '+' := by
  interval_cases d <;> decide

lemma digitChar_ne_minus {d : Nat} (hd : d < 10) : digitChar d ≠ '-' := by
  interval_cases d <;> decide

lemma parseDigitsAux_append (acc : Nat) (l₁ l₂ : List Char) :
    parseDigitsAux acc (l₁ ++ l₂) =
      match parseDigitsAux acc l₁ with
      | some m => parseDigitsAux m l₂
      | none => none := by
  induction l₁ generalizing acc with
  | nil => simp [parseDigitsAux]
  | cons c cs ih =>
    simp only [List.cons_append, parseDigitsAux]
    cases charDigit c with
    | some d => exact ih _
    | none => rfl

/-- The digit string of `n` is never empty. -/
lemma natToChars_ne_nil (n : Nat) : natToChars n ≠ [] := by
  rw [natToChars]
  split
  · simp
  · simp

/-- The head of `natToChars n` is a decimal digit character. -/
lemma natToChars_head (n : Nat) :
    ∃ d, d < 10 ∧ ∃ rest, natToChars n = digitChar d :: rest := by
  induction n using Nat.strong_induction_on with
  | _ n ih =>
    rw [natToChars]
    split
    · exact ⟨n, by omega, [], rfl⟩
    · rename_i h
      obtain ⟨d, hd, rest, hrest⟩ := ih (n / 10) (Nat.div_lt_self (by omega) (by omega))
      exact ⟨d, hd, rest ++ [digitChar (n % 10)], by rw [hrest]; rfl⟩

/-- Parsing the digit string of `n` with accumulator `acc` yields
`acc * w + n`, where `w` is the weight `10 ^ (number of digits of n)`. -/
lemma parseDigitsAux_natToChars (n : Nat) :
    ∀ acc, ∃ w, 0 < w ∧ parseDigitsAux acc (natToChars n) = some (acc * w + n) := by
  induction n using Nat.strong_induction_on with
  | _ n ih =>
    intro acc
    rw [natToChars]
    split
    · rename_i h
      refine ⟨10, by omega, ?_⟩
      simp [parseDigitsAux, charDigit_digitChar h]
    · rename_i h
      obtain ⟨w, hw, hparse⟩ := ih (n / 10) (Nat.div_lt_self (by omega) (by omega)) acc
      refine ⟨w * 10, by positivity, ?_⟩
      rw [parseDigitsAux_append, hparse]
      simp only [parseDigitsAux, charDigit_digitChar (Nat.mod_lt n (by omega : (0:Nat) < 10))]
      congr 1
      have := Nat.div_add_mod n 10
      ring_nf
      omega

lemma parseDigits_natToChars (n : Nat) : parseDigits (natToChars n) = some n := by
  obtain ⟨d, hd, rest, hrest⟩ := natToChars_head n
  obtain ⟨w, hw, hparse⟩ := parseDigitsAux_natToChars n 0
  rw [hrest] at hparse ⊢
  simpa [parseDigits] using hparse

/-- Round-trip of the Go integer conversions: `Atoi (Itoa n) = n`. -/
theorem atoi_itoa (n : Int) : atoi (itoa n) = some n := by
  obtain ⟨d, hd, rest, hrest⟩ := natToChars_head n.natAbs
  by_cases hn : n < 0
  · have habs : -(n.natAbs : Int) = n := by omega
    rw [itoa, if_pos hn]
    show (if ('-' : Char) = '+' then (parseDigits (natToChars n.natAbs)).map (fun m => (m : Int))
      else if ('-' : Char) = '-' then (parseDigits (natToChars n.natAbs)).map (fun m => -(m : Int))
      else (parseDigits ('-' :: natToChars n.natAbs)).map (fun m => (m : Int))) = some n
    rw [if_neg (by decide), if_pos rfl, parseDigits_natToChars]
    show some (-(n.natAbs : Int)) = some n
    exact congrArg some habs
  · have habs : (n.natAbs : Int) = n := by omega
    rw [itoa, if_neg hn]
    have hshape : atoi ⟨natToChars n.natAbs⟩ =
        (if digitChar d = '+' then (parseDigits rest).map (fun m => (m : Int))
        else if digitChar d = '-' then (parseDigits rest).map (fun m => -(m : Int))
        else (parseDigits (digitChar d :: rest)).map (fun m => (m : Int))) := by
      rw [atoi]
      simp only [hrest]
    rw [hshape, if_neg (digitChar_ne_plus hd), if_neg (digitChar_ne_minus hd), ← hrest,
      parseDigits_natToChars]
    show some ((n.natAbs : Int)) = some n
    exact congrArg some habs

/-! ### Lemmas: attribute-bag encode and decode -/

/-- When every declared type is supported, the write direction succeeds
and produces exactly the per-attribute conversions, in iteration
order. -/
lemma attributeMap_eq_ok (attrs : AttrTable) (get : LocalState)
    (h : ∀ p ∈ attrs, p.2.type.supported = true) :
    attributeMap attrs get =
      .ok (attrs.map (fun p => (p.2.attrName, encodeVal p.2.type (get p.1)))) := by
  induction attrs with
  | nil => rfl
  | cons p rest ih =>
    obtain ⟨key, a⟩ := p
    have hrest : ∀ q ∈ rest, q.2.type.supported = true := fun q hq => h q (List.mem_cons_of_mem _ hq)
    have ha : a.type.supported = true := h (key, a) (List.mem_cons_self _ _)
    cases htype : a.type <;>
      simp_all [attributeMap, encodeVal, SchemaValueType.supported, Except.map, ih hrest]

/-- When some declared type is unsupported, the write direction returns
an error. -/
lemma attributeMap_eq_error (attrs : AttrTable) (get : LocalState)
    (h : ∃ p ∈ attrs, p.2.type.supported = false) :
    ∃ msg, attributeMap attrs get = .error msg := by
  induction attrs with
  | nil => simp at h
  | cons p rest ih =>
    obtain ⟨key, a⟩ := p
    by_cases ha : a.type.supported = true
    · have : ∃ q ∈ rest, q.2.type.supported = false := by
        obtain ⟨q, hq, hqbad⟩ := h
        rcases List.mem_cons.mp hq with heq | hmem
        · exact absurd ha (by rw [heq] at hqbad; simp [hqbad])
        · exact ⟨q, hmem, hqbad⟩
      obtain ⟨msg, hmsg⟩ := ih this
      cases htype : a.type <;>
        simp_all [attributeMap, SchemaValueType.supported, Except.map]
    · cases htype : a.type <;>
        simp_all [attributeMap, SchemaValueType.supported, Except.map]

/-- If the write direction did not error, every declared type was
supported. -/
lemma attributeMap_ok_supported (attrs : AttrTable) (get : LocalState)
    (h : ∀ msg, attributeMap attrs get ≠ .error msg) :
    ∀ p ∈ attrs, p.2.type.supported = true := by
  by_contra hbad
  push_neg at hbad
  obtain ⟨p, hp, hpbad⟩ := hbad
  obtain ⟨msg, hmsg⟩ := attributeMap_eq_error attrs get ⟨p, hp, by simpa using hpbad⟩
  exact h msg hmsg

/-- Looking the encoded bag up at an attribute's remote name returns
that attribute's encoded value, provided remote names are distinct. -/
lemma bagOfList_encode_lookup (attrs : AttrTable) (get : LocalState)
    (hnames : (attrs.map (fun p => p.2.attrName)).Nodup) :
    ∀ p ∈ attrs,
      bagOfList (attrs.map (fun q => (q.2.attrName, encodeVal q.2.type (get q.1)))) p.2.attrName =
        some (some (encodeVal p.2.type (get p.1))) := by
  induction attrs with
  | nil => simp
  | cons q rest ih =>
    intro p hp
    rcases List.mem_cons.mp hp with heq | hmem
    · subst heq
      simp [bagOfList]
    · have hne : p.2.attrName ≠ q.2.attrName := by
        simp only [List.map_cons, List.nodup_cons] at hnames
        intro hcontra
        exact hnames.1 (hcontra ▸ List.mem_map_of_mem (fun r => r.2.attrName) hmem)
      have hrest : (rest.map (fun p => p.2.attrName)).Nodup := by
        simp only [List.map_cons, List.nodup_cons] at hnames
        exact hnames.2
      simpa [bagOfList, hne] using ih hrest p hmem

/-- Decoding leaves any key outside the descriptor's key set
untouched. -/
lemma setAttributeMap_preserves_other (attrs : AttrTable) (bag : Bag) (s s' : LocalState)
    (k : String) (hk : k ∉ attrs.map Prod.fst)
    (h : setAttributeMap attrs bag s = .ok s') : s' k = s k := by
  induction attrs generalizing s with
  | nil =>
    simp only [setAttributeMap, Except.ok.injEq] at h
    rw [← h]
  | cons p rest ih =>
    obtain ⟨key, a⟩ := p
    have hkne : k ≠ key := by
      intro hcontra
      exact hk (by simp [hcontra])
    have hkrest : k ∉ rest.map Prod.fst := fun hmem => hk (by simp [hmem])
    simp only [setAttributeMap] at h
    split at h
    · exact ih _ hkrest h
    · split at h
      · split at h
        · simp only [Except.ok.injEq] at h
          rw [← h]; simp [setKey, hkne]
        · split at h <;>
            (simp only [Except.ok.injEq] at h; rw [← h]; simp [setKey, hkne])
        · simp only [Except.ok.injEq] at h
          rw [← h]; simp [setKey, hkne]
        · exact absurd h (by simp)
      · have := ih _ hkrest h
        rw [this]; simp [setKey, hkne]

/-- Decoding never changes a write-only attribute's local value
(descriptor keys are distinct, as they are in a Go map). -/
lemma setAttributeMap_writeOnly_unchanged (attrs : AttrTable) (bag : Bag) (s s' : LocalState)
    (hkeys : (attrs.map Prod.fst).Nodup)
    (h : setAttributeMap attrs bag s = .ok s') :
    ∀ p ∈ attrs, p.2.writeOnly = true → s' p.1 = s p.1 := by
  induction attrs generalizing s with
  | nil => simp
  | cons q rest ih =>
    obtain ⟨key, a⟩ := q
    intro p hp hwo
    simp only [List.map_cons, List.nodup_cons] at hkeys
    rcases List.mem_cons.mp hp with heq | hmem
    · subst heq
      simp only [setAttributeMap] at h
      rw [if_pos (show a.writeOnly = true from hwo)] at h
      exact setAttributeMap_preserves_other rest bag s s' key hkeys.1 h
    · have hpne : p.1 ≠ key := by
        intro hcontra
        exact hkeys.1 (hcontra ▸ List.mem_map_of_mem Prod.fst hmem)
      simp only [setAttributeMap] at h
      split at h
      · exact ih _ hkeys.2 h p hmem hwo
      · split at h
        · split at h
          · simp only [Except.ok.injEq] at h
            rw [← h]; simp [setKey, hpne]
          · split at h <;>
              (simp only [Except.ok.injEq] at h; rw [← h]; simp [setKey, hpne])
          · simp only [Except.ok.injEq] at h
            rw [← h]; simp [setKey, hpne]
          · exact absurd h (by simp)
        · have := ih _ hkeys.2 h p hmem hwo
          rw [this]; simp [setKey, hpne]

/-- Decoding a bag that holds, for every non-write-only attribute, the
encoding of the current local value, reproduces the current local state
pointwise (the early `return nil` merely leaves the remaining fields at
their — already correct — values). -/
lemma setAttributeMap_roundtrip (attrs : AttrTable) (bag : Bag) (s : LocalState)
    (h : ∀ p ∈ attrs, p.2.writeOnly = false →
      bag p.2.attrName = some (some (encodeVal p.2.type (s p.1))) ∧
        p.2.type.supported = true ∧ typedFor p.2.type (s p.1) = true) :
    ∃ s', setAttributeMap attrs bag s = .ok s' ∧ ∀ k, s' k = s k := by
  induction attrs with
  | nil => exact ⟨s, rfl, fun _ => rfl⟩
  | cons q rest ih =>
    obtain ⟨key, a⟩ := q
    by_cases hwo : a.writeOnly = true
    · obtain ⟨s', hs', hagree⟩ := ih (fun p hp => h p (List.mem_cons_of_mem _ hp))
      exact ⟨s', by simp [setAttributeMap, hwo, hs'], hagree⟩
    · have hwo' : a.writeOnly = false := by simpa using hwo
      obtain ⟨hbag, hsupp, htyped⟩ := h (key, a) (List.mem_cons_self _ _) hwo'
      have hsetsame : ∀ v, s key = v → ∀ k, setKey s key v k = s k := by
        intro v hv k
        simp only [setKey]
        split
        · rename_i hk; rw [hk, hv]
        · rfl
      cases hval : s key with
      | str str =>
        cases htype : a.type <;> simp [htype, hval, typedFor] at htyped
        rw [htype] at hbag
        simp only [encodeVal, hval, AttrValue.asStr] at hbag
        refine ⟨setKey s key (.str str), ?_, fun k => hsetsame (.str str) hval k⟩
        simp [setAttributeMap, hwo', hbag, htype]
      | int n =>
        cases htype : a.type <;> simp [htype, hval, typedFor] at htyped
        rw [htype] at hbag
        simp only [encodeVal, hval, AttrValue.asInt] at hbag
        refine ⟨setKey s key (.int n), ?_, fun k => hsetsame (.int n) hval k⟩
        simp [setAttributeMap, hwo', hbag, htype, atoi_itoa]
      | bool b =>
        cases htype : a.type <;> simp [htype, hval, typedFor] at htyped
        rw [htype] at hbag
        simp only [encodeVal, hval, AttrValue.asBool] at hbag
        refine ⟨setKey s key (.bool b), ?_, fun k => hsetsame (.bool b) hval k⟩
        cases b <;> simp [setAttributeMap, hwo', hbag, htype]
      | null =>
        cases htype : a.type <;> simp [htype, hval, typedFor] at htyped

/-! ### Lemmas: `strings.Split` segment counting -/

lemma splitSep_ne_nil (sep : Char) (cs : List Char) : splitSep sep cs ≠ [] := by
  cases cs with
  | nil => simp [splitSep]
  | cons c rest =>
    simp only [splitSep]
    split
    · simp
    · split <;> simp

lemma splitSep_length (sep : Char) (cs : List Char) :
    (splitSep sep cs).length = cs.count sep + 1 := by
  induction cs with
  | nil => simp [splitSep]
  | cons c rest ih =>
    simp only [splitSep]
    by_cases hc : c = sep
    · subst hc
      simp [List.count_cons, ih]
    · rw [if_neg hc]
      have hne := splitSep_ne_nil sep rest
      cases hsplit : splitSep sep rest with
      | nil => exact absurd hsplit hne
      | cons seg segs =>
        rw [hsplit] at ih
        simp only [List.length_cons] at ih ⊢
        simp [List.count_cons, hc, ih]

/-- The second segment exists iff the separator occurs in the string. -/
lemma splitSep_get?_one (sep : Char) (cs : List Char) :
    (splitSep sep cs)[1]? = none ↔ sep ∉ cs := by
  rw [List.getElem?_eq_none_iff]
  rw [splitSep_length]
  constructor
  · intro h hmem
    have := List.count_pos_iff.mpr hmem
    omega
  · intro h
    have : cs.count sep = 0 := List.count_eq_zero.mpr h
    omega

/-! ### Claim theorems -/

/-- C1: the claim says the read-direction projection sets every
non-write-only descriptor-defined field exactly once per invocation,
clearing absent fields and setting present ones, with no field left
stale.  The code violates this: the `return nil` inside the loop stops
the iteration at the first present non-write-only attribute.  Here a
two-attribute descriptor with both remote entries present leaves the
second field at its stale prior value `"stale"` instead of the bag's
`"y"`. -/
theorem setAttributeMap_leaves_stale_field :
    ∃ s', setAttributeMap
        [("foo", ⟨"Foo", .typeString, false⟩), ("bar", ⟨"Bar", .typeString, false⟩)]
        (bagOfList [("Foo", "x"), ("Bar", "y")])
        (fun k => if k = "bar" then .str "stale" else .null) = .ok s' ∧
      s' "foo" = .str "x" ∧ s' "bar" = .str "stale" :=
  ⟨_, rfl, rfl, rfl⟩

/-- C2: encoding a schema-conformant local state through the write
direction and decoding the bag back through the read direction leaves
every attribute value — of string, integer or boolean type — equal to
its original value, and decoding never changes a write-only attribute's
local value, whatever the bag holds for it.  Descriptor local keys and
remote names are distinct, as they are for the Go map-backed
descriptors. -/
theorem attributeMap_setAttributeMap_roundtrip (attrs : AttrTable) (s : LocalState)
    (hkeys : (attrs.map Prod.fst).Nodup)
    (hnames : (attrs.map (fun p => p.2.attrName)).Nodup)
    (hsupp : ∀ p ∈ attrs, p.2.type.supported = true)
    (htyped : ∀ p ∈ attrs, typedFor p.2.type (s p.1) = true) :
    (∃ bagL s', attributeMap attrs s = .ok bagL ∧
        setAttributeMap attrs (bagOfList bagL) s = .ok s' ∧ ∀ k, s' k = s k) ∧
    ∀ (bag : Bag) (s₁ s₁' : LocalState), setAttributeMap attrs bag s₁ = .ok s₁' →
      ∀ p ∈ attrs, p.2.writeOnly = true → s₁' p.1 = s₁ p.1 := by
  constructor
  · obtain ⟨s', hs', hagree⟩ := setAttributeMap_roundtrip attrs
      (bagOfList (attrs.map (fun q => (q.2.attrName, encodeVal q.2.type (s q.1))))) s
      (fun p hp _ => ⟨bagOfList_encode_lookup attrs s hnames p hp, hsupp p hp, htyped p hp⟩)
    exact ⟨_, s', attributeMap_eq_ok attrs s hsupp, hs', hagree⟩
  · intro bag s₁ s₁' h p hp hwo
    exact setAttributeMap_writeOnly_unchanged attrs bag s₁ s₁' hkeys h p hp hwo

/-- C2 witness: the round-trip theorem instantiated at the concrete
`sampleTable` / `sampleState`. -/
theorem attributeMap_setAttributeMap_roundtrip_witness :
    (∃ bagL s', attributeMap sampleTable sampleState = .ok bagL ∧
        setAttributeMap sampleTable (bagOfList bagL) sampleState = .ok s' ∧
        ∀ k, s' k = sampleState k) ∧
    ∀ (bag : Bag) (s₁ s₁' : LocalState), setAttributeMap sampleTable bag s₁ = .ok s₁' →
      ∀ p ∈ sampleTable, p.2.writeOnly = true → s₁' p.1 = s₁ p.1 :=
  attributeMap_setAttributeMap_roundtrip sampleTable sampleState
    (by decide) (by decide) (by decide) (by decide)

/-- C4: the write direction produces one bag entry per descriptor
attribute, keyed by the remote name, with booleans as the tokens
`"true"`/`"false"`, integers as decimal strings and strings passed
through; it errors exactly when some attribute's declared type is
outside {string, integer, boolean}. -/
theorem attributeMap_contract (attrs : AttrTable) (get : LocalState)
    (hnames : (attrs.map (fun p => p.2.attrName)).Nodup) :
    ((∀ p ∈ attrs, p.2.type.supported = true) →
      ∃ l, attributeMap attrs get = .ok l ∧ (l.map Prod.fst).Nodup ∧
        List.Forall₂ (fun (p : String × LayerTypeAttribute) (e : String × String) =>
          e.1 = p.2.attrName ∧
          (p.2.type = .typeString → e.2 = (get p.1).asStr) ∧
          (p.2.type = .typeInt → e.2 = itoa (get p.1).asInt) ∧
          (p.2.type = .typeBool → e.2 = if (get p.1).asBool then "true" else "false"))
          attrs l) ∧
    ((∃ msg, attributeMap attrs get = .error msg) ↔
      ∃ p ∈ attrs, p.2.type.supported = false) := by
  constructor
  · intro hsupp
    refine ⟨attrs.map (fun p => (p.2.attrName, encodeVal p.2.type (get p.1))),
      attributeMap_eq_ok attrs get hsupp, ?_, ?_⟩
    · simpa [List.map_map, Function.comp] using hnames
    · rw [List.forall₂_map_right_iff]
      rw [List.forall₂_same]
      intro p hp
      refine ⟨rfl, ?_, ?_, ?_⟩ <;> intro htype <;> simp [encodeVal, htype]
  · constructor
    · rintro ⟨msg, hmsg⟩
      by_contra hbad
      push_neg at hbad
      have hsupp : ∀ p ∈ attrs, p.2.type.supported = true := by
        intro p hp
        have := hbad p hp
        revert this
        cases p.2.type.supported <;> simp
      rw [attributeMap_eq_ok attrs get hsupp] at hmsg
      exact Except.noConfusion hmsg
    · intro hbad
      exact attributeMap_eq_error attrs get hbad

/-- C4 witness: the write-direction contract instantiated at the
concrete `sampleTable` / `sampleState`. -/
theorem attributeMap_contract_witness :
    ((∀ p ∈ sampleTable, p.2.type.supported = true) →
      ∃ l, attributeMap sampleTable sampleState = .ok l ∧ (l.map Prod.fst).Nodup ∧
        List.Forall₂ (fun (p : String × LayerTypeAttribute) (e : String × String) =>
          e.1 = p.2.attrName ∧
          (p.2.type = .typeString → e.2 = (sampleState p.1).asStr) ∧
          (p.2.type = .typeInt → e.2 = itoa (sampleState p.1).asInt) ∧
          (p.2.type = .typeBool → e.2 = if (sampleState p.1).asBool then "true" else "false"))
          sampleTable l) ∧
    ((∃ msg, attributeMap sampleTable sampleState = .error msg) ↔
      ∃ p ∈ sampleTable, p.2.type.supported = false) :=
  attributeMap_contract sampleTable sampleState (by decide)

/-- C5: on an update where the load-balancer identifier changed, the
adapter detaches the old identifier exactly when it is non-empty, then
attaches the new identifier exactly when it is non-empty, before the
`UpdateLayer` call; instantiated at the three identifier pairs named by
the claim. -/
theorem updateCalls_elb_change (oldLB newLB : String) (hchange : oldLB ≠ newLB) :
    updateCalls oldLB newLB =
      ((if oldLB ≠ "" then [ApiCall.detachELB oldLB] else []) ++
        (if newLB ≠ "" then [ApiCall.attachELB newLB] else [])) ++ [ApiCall.updateLayer] ∧
    updateCalls "lb-1" "lb-2" =
      [.detachELB "lb-1", .attachELB "lb-2", .updateLayer] ∧
    updateCalls "" "lb-2" = [.attachELB "lb-2", .updateLayer] ∧
    updateCalls "lb-1" "" = [.detachELB "lb-1", .updateLayer] := by
  refine ⟨?_, by decide, by decide, by decide⟩
  rw [updateCalls, if_pos hchange]

/-- C5 witness: the update call sequence at the changed pair
`"lb-1"` → `"lb-2"`. -/
theorem updateCalls_elb_change_witness :
    ("lb-1" : String) ≠ "lb-2" ∧
    updateCalls "lb-1" "lb-2" =
      [.detachELB "lb-1", .attachELB "lb-2", .updateLayer] :=
  ⟨by decide, (updateCalls_elb_change "lb-1" "lb-2" (by decide)).2.1⟩

/-- C7: the claim says every present-but-unparseable integer entry
clears its local field without an error.  The per-attribute decode does
behave that way (second conjunct: a lone integer attribute with bag
value `"garbage"` is cleared, with no error), but the early `return
nil` makes the universal claim false: when another present attribute is
iterated first, the garbage integer attribute is never processed and
keeps its stale value `7` (first conjunct). -/
theorem setAttributeMap_garbage_int :
    (∃ s', setAttributeMap
        [("a", ⟨"A", .typeString, false⟩), ("n", ⟨"N", .typeInt, false⟩)]
        (bagOfList [("A", "x"), ("N", "garbage")])
        (fun k => if k = "n" then .int 7 else .null) = .ok s' ∧
      s' "n" = .int 7) ∧
    (∃ s₂, setAttributeMap [("n", ⟨"N", .typeInt, false⟩)] (bagOfList [("N", "garbage")])
        (fun k => if k = "n" then .int 7 else .null) = .ok s₂ ∧ s₂ "n" = .null) :=
  ⟨⟨_, rfl, rfl⟩, ⟨_, rfl, rfl⟩⟩

/-- C8: the outbound volume configuration omits the IOPS field exactly
when the local IOPS value is 0 and carries the local value otherwise;
instantiated at IOPS 0 and IOPS 100. -/
theorem volumeConfigurations_iops (vs : List VolumeIn) :
    List.Forall₂ (fun (v : VolumeIn) (c : VolumeConfigurationOut) =>
      (v.iops = 0 → c.iops = none) ∧ (v.iops ≠ 0 → c.iops = some v.iops))
      vs (volumeConfigurations vs) ∧
    (volumeConfigurationOf ⟨"/mnt", 1, 8, "standard", false, 0, ""⟩).iops = none ∧
    (volumeConfigurationOf ⟨"/mnt", 1, 8, "standard", false, 100, ""⟩).iops = some 100 := by
  refine ⟨?_, by decide, by decide⟩
  rw [volumeConfigurations, List.forall₂_map_right_iff, List.forall₂_same]
  intro v hv
  by_cases h : v.iops = 0 <;> simp [volumeConfigurationOf, h]

/-- C8 witness: the IOPS conjuncts of the volume-configuration theorem
at the empty record list. -/
theorem volumeConfigurations_iops_witness :
    (volumeConfigurationOf ⟨"/mnt", 1, 8, "standard", false, 0, ""⟩).iops = none ∧
    (volumeConfigurationOf ⟨"/mnt", 1, 8, "standard", false, 100, ""⟩).iops = some 100 :=
  (volumeConfigurations_iops []).2

/-- C9: the outbound RAID level is the parsed decimal value of the
local RAID-level string when it parses, and is omitted — with no error
possible, the marshalling being total — when the string is empty or
unparseable; instantiated at `"5"`, `"invalid"` and `""`. -/
theorem volumeConfigurations_raidLevel (vs : List VolumeIn) :
    List.Forall₂ (fun (v : VolumeIn) (c : VolumeConfigurationOut) =>
      (∀ n, atoi v.raidLevel = some n → c.raidLevel = some n) ∧
      (atoi v.raidLevel = none → c.raidLevel = none))
      vs (volumeConfigurations vs) ∧
    (volumeConfigurationOf ⟨"/mnt", 1, 8, "standard", false, 0, "5"⟩).raidLevel = some 5 ∧
    (volumeConfigurationOf ⟨"/mnt", 1, 8, "standard", false, 0, "invalid"⟩).raidLevel = none ∧
    (volumeConfigurationOf ⟨"/mnt", 1, 8, "standard", false, 0, ""⟩).raidLevel = none := by
  refine ⟨?_, by decide, by decide, by decide⟩
  rw [volumeConfigurations, List.forall₂_map_right_iff, List.forall₂_same]
  intro v hv
  by_cases h : v.raidLevel = ""
  · constructor
    · intro n hn
      rw [h] at hn
      exact Option.noConfusion ((rfl : atoi "" = none) ▸ hn)
    · intro _
      simp [volumeConfigurationOf, h]
  · constructor
    · intro n hn
      simp [volumeConfigurationOf, h, hn]
    · intro hn
      simp [volumeConfigurationOf, h, hn]

/-- C9 witness: the RAID-level conjuncts of the volume-configuration
theorem at the empty record list. -/
theorem volumeConfigurations_raidLevel_witness :
    (volumeConfigurationOf ⟨"/mnt", 1, 8, "standard", false, 0, "5"⟩).raidLevel = some 5 ∧
    (volumeConfigurationOf ⟨"/mnt", 1, 8, "standard", false, 0, "invalid"⟩).raidLevel = none ∧
    (volumeConfigurationOf ⟨"/mnt", 1, 8, "standard", false, 0, ""⟩).raidLevel = none :=
  (volumeConfigurations_raidLevel []).2

/-- C10: the claim says every present, non-nil boolean entry is decoded
(false exactly on the token `"false"`, true on any other string) and is
never left unset.  The per-attribute decode does behave that way
(conjuncts two to four: `"false"` ↦ false, `"True"` ↦ true, `"0"` ↦
true), but the early `return nil` makes the universal claim false: a
present boolean entry `"false"` iterated after another present
attribute is never processed, and the field keeps its stale value
`true` (first conjunct). -/
theorem setAttributeMap_present_bool :
    (∃ s', setAttributeMap
        [("a", ⟨"A", .typeString, false⟩), ("b", ⟨"B", .typeBool, false⟩)]
        (bagOfList [("A", "x"), ("B", "false")])
        (fun k => if k = "b" then .bool true else .null) = .ok s' ∧
      s' "b" = .bool true) ∧
    (∃ s₁, setAttributeMap [("b", ⟨"B", .typeBool, false⟩)] (bagOfList [("B", "false")])
        (fun _ => .null) = .ok s₁ ∧ s₁ "b" = .bool false) ∧
    (∃ s₂, setAttributeMap [("b", ⟨"B", .typeBool, false⟩)] (bagOfList [("B", "True")])
        (fun _ => .null) = .ok s₂ ∧ s₂ "b" = .bool true) ∧
    (∃ s₃, setAttributeMap [("b", ⟨"B", .typeBool, false⟩)] (bagOfList [("B", "0")])
        (fun _ => .null) = .ok s₃ ∧ s₃ "b" = .bool true) :=
  ⟨⟨_, rfl, rfl⟩, ⟨_, rfl, rfl⟩, ⟨_, rfl, rfl⟩, ⟨_, rfl, rfl⟩⟩

/-- C3: the pool read derives the scope identifier by splitting the
compound scope ARN on `"/"` and taking the second segment, and panics
(index out of range) exactly when the ARN has fewer than two path
segments, i.e. contains no `"/"`. -/
theorem ipamPoolRead_scope_split (pool : IpamPool) (rest : List (Option IpamPool)) :
    (dataSourceVPCIpamPoolRead (some pool :: rest) = .panic ↔
      '/' ∉ pool.ipamScopeArn.data) ∧
    ∀ seg, (splitSep '/' pool.ipamScopeArn.data)[1]? = some seg →
      dataSourceVPCIpamPoolRead (some pool :: rest) = .ok (some (projectPool pool ⟨seg⟩)) := by
  constructor
  · rw [← splitSep_get?_one '/' pool.ipamScopeArn.data]
    cases h : (splitSep '/' pool.ipamScopeArn.data)[1]? <;>
      simp [dataSourceVPCIpamPoolRead, h]
  · intro seg hseg
    simp [dataSourceVPCIpamPoolRead, hseg]

/-- C3 witness: a two-segment ARN yields the second segment as the
scope id, and a separator-free ARN yields the panic. -/
theorem ipamPoolRead_scope_split_witness :
    dataSourceVPCIpamPoolRead [some poolA] = .ok (some (projectPool poolA "scp-1")) ∧
    dataSourceVPCIpamPoolRead [some poolNoSlash] = .panic :=
  ⟨(ipamPoolRead_scope_split poolA []).2 "scp-1".data (by decide),
    (ipamPoolRead_scope_split poolNoSlash []).1.mpr (by decide)⟩

/-- C6: after a successful list query the read never returns an error:
an empty result list yields a normal return with nothing selected, and
otherwise the entire outcome depends only on the first returned record;
with the two concrete matching records `poolA`, `poolB` the output is
projected from `poolA`, the first in returned order. -/
theorem ipamPoolRead_selects_first :
    dataSourceVPCIpamPoolRead [] = .ok none ∧
    (∀ p rest, dataSourceVPCIpamPoolRead (p :: rest) = dataSourceVPCIpamPoolRead [p]) ∧
    (∀ pools msg, dataSourceVPCIpamPoolRead pools ≠ .error msg) ∧
    dataSourceVPCIpamPoolRead [some poolA, some poolB] =
      .ok (some (projectPool poolA "scp-1")) := by
  refine ⟨rfl, ?_, ?_, by decide⟩
  · intro p rest
    cases p with
    | none => rfl
    | some pool =>
      cases h : (splitSep '/' pool.ipamScopeArn.data)[1]? <;>
        simp [dataSourceVPCIpamPoolRead, h]
  · intro pools msg
    cases pools with
    | nil => simp [dataSourceVPCIpamPoolRead]
    | cons p rest =>
      cases p with
      | none => simp [dataSourceVPCIpamPoolRead]
      | some pool =>
        cases h : (splitSep '/' pool.ipamScopeArn.data)[1]? <;>
          simp [dataSourceVPCIpamPoolRead, h]

/-- C6 witness: the first-record selection at the two concrete matching
records. -/
theorem ipamPoolRead_selects_first_witness :
    dataSourceVPCIpamPoolRead [some poolA, some poolB] =
      .ok (some (projectPool poolA "scp-1")) :=
  ipamPoolRead_selects_first.2.2.2

end TfAws
